import Mathlib

/- Verification of the hmmkay HMM implementation (src/hmmidunnomaybe.py).

   Shallow embedding conventions:
   * probabilities are real numbers (`ℝ`);
   * log-space quantities live in `EReal`, so that `np.log(0) = -inf` is
     represented faithfully by `⊥` (numpy floats propagate `-inf` through
     `logsumexp` as a zero-probability term);
   * numpy arrays become total functions `ℕ → ℝ` (resp. `ℕ → ℕ → ℝ`) together
     with an explicit size; only indices below the size are ever read;
   * the in-place lattice-filling loops of `_forward`, `_backward` and
     `_viterbi` become structural recursions on the time index: each loop
     iteration writes column `t` reading only column `t - 1` (resp. `t + 1`),
     so the filled array is exactly the recursively defined function;
   * the helpers `_logsumexp`, `_normalize`, `_choice` and
     `_check_array_sums_to_1` are imported by the source from a `_utils`
     module that is not part of the provided sources; they are modelled from
     the spec where indicated. -/

namespace Hmm

/-- Exponential extended to `EReal`: `exp(-inf) = 0`, matching numpy
(`np.exp` of `-inf`).  The value at `⊤` is junk (`0`); `⊤` never arises as a
log of a probability. -/
noncomputable def eexp (x : EReal) : ℝ :=
  if x = ⊥ ∨ x = ⊤ then 0 else Real.exp x.toReal

/-- Elementwise natural logarithm as numpy computes it on probability entries:
`np.log 0 = -inf`, i.e. `⊥`.  (Negative inputs would give NaN in numpy; they
never occur on probability tables, and are mapped to the junk value `⊥`.) -/
noncomputable def elog (x : ℝ) : EReal :=
  if x ≤ 0 then ⊥ else ((Real.log x : ℝ) : EReal)

/-- Modelled from the spec: `_logsumexp`, imported by the source from the
missing `_utils` module.  Per the spec it is the "numerically stable
evaluation of log(Σ exp(xᵢ)) via max-subtraction", returning `-inf` on
all-`-inf` input.  In exact arithmetic that is the logarithm of the sum of
the exponentials. -/
noncomputable def elogsumexp (S : ℕ) (v : ℕ → EReal) : EReal :=
  elog (∑ j ∈ Finset.range S, eexp (v j))

/-- The argument pack of the `@njit` lattice routines: the number of hidden
states together with the log-tables `log_pi`, `log_A`, `log_B` that
`HMM._forward` / `_backward` / `_viterbi` pass in. -/
structure LogParams where
  S : ℕ
  elpi : ℕ → EReal
  elA : ℕ → ℕ → EReal
  elB : ℕ → ℕ → EReal

/-- The forward lattice filled in place by `_forward`:
`log_alpha[:, 0] = log_pi + log_B[:, seq[0]]` and, for `t ≥ 1`,
`log_alpha[s, t] = _logsumexp(log_alpha[:, t-1] + log_A[:, s]) + log_B[s, seq[t]]`.
Column `t` of the loop reads only the completed column `t - 1`. -/
noncomputable def logAlpha (p : LogParams) (seq : ℕ → ℕ) : ℕ → ℕ → EReal
  | s, 0 => p.elpi s + p.elB s (seq 0)
  | s, t + 1 =>
      elogsumexp p.S (fun j => logAlpha p seq j t + p.elA j s)
        + p.elB s (seq (t + 1))

/-- Return value of `_forward`: `_logsumexp(log_alpha[:, -1])` for a sequence
of length `T` (the last column has index `T - 1`). -/
noncomputable def _forward (p : LogParams) (seq : ℕ → ℕ) (T : ℕ) : EReal :=
  elogsumexp p.S (fun s => logAlpha p seq s (T - 1))

/-- The backward lattice of `_backward`, indexed by fuel `k = (T-1) - t`
(the loop runs `t` from `T-2` down to `0` after seeding column `T-1` with
`np.log(1)`).  `logBetaAux k s` is `log_beta[s, T-1-k]`. -/
noncomputable def logBetaAux (p : LogParams) (seq : ℕ → ℕ) (T : ℕ) :
    ℕ → ℕ → EReal
  | 0, _ => elog 1
  | k + 1, s =>
      elogsumexp p.S
        (fun j => p.elA s j + p.elB j (seq (T - 1 - k)) + logBetaAux p seq T k j)

/-- `log_beta[s, t]` as filled by `_backward` on a sequence of length `T`. -/
noncomputable def logBeta (p : LogParams) (seq : ℕ → ℕ) (T : ℕ)
    (s t : ℕ) : EReal :=
  logBetaAux p seq T (T - 1 - t) s

/-- `HMM.log_likelihood`: `total_log_likelihood = 0`, then
`total_log_likelihood += self._forward(seq, log_alpha)` over the corpus. -/
noncomputable def log_likelihood (p : LogParams) (T : ℕ)
    (seqs : List (ℕ → ℕ)) : EReal :=
  seqs.foldl (fun acc seq => acc + _forward p seq T) 0

/-- `HMM.likelihood`: `np.exp(self.log_likelihood(sequences))`. -/
noncomputable def likelihood (p : LogParams) (T : ℕ)
    (seqs : List (ℕ → ℕ)) : ℝ :=
  eexp (log_likelihood p T seqs)

/-- `np.argmax` over the first `S` entries of `v`: index of the maximum,
first (smallest) index on ties.  The fold updates the candidate only on a
strictly larger value, exactly numpy's first-occurrence policy. -/
noncomputable def argmaxFirst (S : ℕ) (v : ℕ → EReal) : ℕ :=
  (List.range S).foldl (fun best j => if v best < v j then j else best) 0

/-- The Viterbi lattice of `_viterbi`:
`log_V[:, 0] = log_pi + log_B[:, seq[0]]` and, for `t ≥ 1`,
`work = log_V[:, t-1] + log_A[:, s]`, `best = np.argmax(work)`,
`log_V[s, t] = work[best] + log_B[s, seq[t]]`. -/
noncomputable def logV (p : LogParams) (seq : ℕ → ℕ) : ℕ → ℕ → EReal
  | s, 0 => p.elpi s + p.elB s (seq 0)
  | s, t + 1 =>
      let w := fun j => logV p seq j t + p.elA j s
      w (argmaxFirst p.S w) + p.elB s (seq (t + 1))

/-- `back_path[s, t] = np.argmax(log_V[:, t-1] + log_A[:, s])`, the back link
stored by `_viterbi` for `t ≥ 1`. -/
noncomputable def backPath (p : LogParams) (seq : ℕ → ℕ) (s t : ℕ) : ℕ :=
  argmaxFirst p.S (fun j => logV p seq j (t - 1) + p.elA j s)

/-- The chain of states visited by `_get_best_path`, indexed by the number of
backward steps taken: `btState 0` is `np.argmax(log_V[:, -1])` (the state at
time `T-1`) and `btState (k+1) = back_path[btState k, T-1-k]` (the state at
time `T-1-(k+1)`). -/
noncomputable def btState (p : LogParams) (seq : ℕ → ℕ) (T : ℕ) : ℕ → ℕ
  | 0 => argmaxFirst p.S (fun s => logV p seq s (T - 1))
  | k + 1 => backPath p seq (btState p seq T k) (T - 1 - k)

/-- The best path written by `_get_best_path`: entry `t` is the state reached
after `T-1-t` backward steps. -/
noncomputable def decodeOne (p : LogParams) (seq : ℕ → ℕ) (T : ℕ) : List ℕ :=
  (List.range T).map (fun t => btState p seq T (T - 1 - t))

/-- `HMM.decode`: one best path per sequence of the corpus. -/
noncomputable def decode (p : LogParams) (T : ℕ)
    (seqs : List (ℕ → ℕ)) : List (List ℕ) :=
  seqs.map (fun seq => decodeOne p seq T)

/-- Log-space score of the state assignment `path` on the observation prefix
`seq[0..t]`: `log_pi[path 0] + log_B[path 0, seq 0]` plus the transition and
emission log-terms of each later step. -/
noncomputable def scoreUpTo (p : LogParams) (seq : ℕ → ℕ)
    (path : ℕ → ℕ) : ℕ → EReal
  | 0 => p.elpi (path 0) + p.elB (path 0) (seq 0)
  | t + 1 =>
      scoreUpTo p seq path t
        + (p.elA (path t) (path (t + 1)) + p.elB (path (t + 1)) (seq (t + 1)))

/-- Probability-space joint score `P(seq[0..t], path[0..t])` of a state
assignment: `pi[path 0] * B[path 0, seq 0] * ∏ A * B`. -/
noncomputable def realScoreUpTo (pi : ℕ → ℝ) (A B : ℕ → ℕ → ℝ)
    (seq : ℕ → ℕ) (path : ℕ → ℕ) : ℕ → ℝ
  | 0 => pi (path 0) * B (path 0) (seq 0)
  | t + 1 =>
      realScoreUpTo pi A B seq path t
        * (A (path t) (path (t + 1)) * B (path (t + 1)) (seq (t + 1)))

/-- The log-tables an `HMM` object passes to the `@njit` kernels: elementwise
`np.log` of the current probability tables (`_log_pi`, `_log_A`, `_log_B`;
the property getters recompute exactly this whenever their recompute flag is
set, and the flag is set in every reachable object state). -/
noncomputable def toLogParams (S : ℕ) (pi : ℕ → ℝ) (A B : ℕ → ℕ → ℝ) :
    LogParams :=
  ⟨S, fun s => elog (pi s), fun i j => elog (A i j), fun s k => elog (B s k)⟩

/-- The mutable state of an `HMM` object: the three probability tables, the
dimensions derived at construction, the fixed iteration count, the dirty
flags `_recompute_log_*`, and the cached log tables `__log_*`. -/
structure HMMState where
  n_hidden_states : ℕ
  n_observable_states : ℕ
  init_probas : ℕ → ℝ
  transitions : ℕ → ℕ → ℝ
  emissions : ℕ → ℕ → ℝ
  n_iter : ℕ
  recompute_log_pi : Bool
  recompute_log_A : Bool
  recompute_log_B : Bool
  cached_log_pi : ℕ → EReal
  cached_log_A : ℕ → ℕ → EReal
  cached_log_B : ℕ → ℕ → EReal

/-- The `pi` property setter: stores the new table and sets
`_recompute_log_pi = True`. -/
def setPi (v : ℕ → ℝ) (st : HMMState) : HMMState :=
  { st with init_probas := v, recompute_log_pi := true }

/-- The `A` property setter: stores the new table and sets
`_recompute_log_A = True`. -/
def setA (v : ℕ → ℕ → ℝ) (st : HMMState) : HMMState :=
  { st with transitions := v, recompute_log_A := true }

/-- The `B` property setter: stores the new table and sets
`_recompute_log_B = True`. -/
def setB (v : ℕ → ℕ → ℝ) (st : HMMState) : HMMState :=
  { st with emissions := v, recompute_log_B := true }

/-- The `_log_pi` property getter: if the recompute flag is set, recompute
`np.log(self.pi)` into the cache and return it; otherwise return the cache.
(The source never clears the flag after recomputing.) -/
noncomputable def getLogPi (st : HMMState) : (ℕ → EReal) × HMMState :=
  if st.recompute_log_pi then
    ((fun s => elog (st.init_probas s)),
      { st with cached_log_pi := fun s => elog (st.init_probas s) })
  else (st.cached_log_pi, st)

/-- The `_log_A` property getter (same read-through shape as `_log_pi`). -/
noncomputable def getLogA (st : HMMState) : (ℕ → ℕ → EReal) × HMMState :=
  if st.recompute_log_A then
    ((fun i j => elog (st.transitions i j)),
      { st with cached_log_A := fun i j => elog (st.transitions i j) })
  else (st.cached_log_A, st)

/-- The `_log_B` property getter (same read-through shape as `_log_pi`). -/
noncomputable def getLogB (st : HMMState) : (ℕ → ℕ → EReal) × HMMState :=
  if st.recompute_log_B then
    ((fun s k => elog (st.emissions s k)),
      { st with cached_log_B := fun s k => elog (st.emissions s k) })
  else (st.cached_log_B, st)

/-- The log-parameter pack an object in state `st` hands to the kernels. -/
noncomputable def stateLogParams (st : HMMState) : LogParams :=
  toLogParams st.n_hidden_states st.init_probas st.transitions st.emissions

/-- Modelled from the spec: `_normalize` (missing `_utils` module) on a
vector — "normalize π-accumulator to sum to 1": divide by the total. -/
noncomputable def normalizeVec (n : ℕ) (v : ℕ → ℝ) : ℕ → ℝ :=
  fun s => v s / ∑ j ∈ Finset.range n, v j

/-- Modelled from the spec: `_normalize(·, axis=1)` (missing `_utils`
module) — "normalize each row": divide each row by its own sum. -/
noncomputable def normalizeRows (n : ℕ) (M : ℕ → ℕ → ℝ) : ℕ → ℕ → ℝ :=
  fun i j => M i j / ∑ k ∈ Finset.range n, M i k

/-- `log_gamma = log_alpha + log_beta - log_likelihood` for one sequence
(the per-sequence log-likelihood is `logsumexp(log_alpha[:, -1])`, i.e. the
`_forward` return value). -/
noncomputable def log_gamma (p : LogParams) (seq : ℕ → ℕ) (T : ℕ)
    (s t : ℕ) : EReal :=
  logAlpha p seq s t + logBeta p seq T s t - _forward p seq T

/-- `log_E[i, j, t] = log_alpha[i, t] + log_A[i, j] + log_B[j, seq[t+1]]
+ log_beta[j, t+1] - log_likelihood` for one sequence. -/
noncomputable def log_E (p : LogParams) (seq : ℕ → ℕ) (T : ℕ)
    (i j t : ℕ) : EReal :=
  logAlpha p seq i t + p.elA i j + p.elB j (seq (t + 1))
    + logBeta p seq T j (t + 1) - _forward p seq T

/-- Per-sequence contribution `np.exp(log_gamma[:, 0])` to `pi_acc`. -/
noncomputable def piContrib (p : LogParams) (seq : ℕ → ℕ) (T : ℕ) :
    ℕ → ℝ :=
  fun s => eexp (log_gamma p seq T s 0)

/-- Per-sequence contribution `np.sum(np.exp(log_E), axis=-1)` to `A_acc`
(the last axis has length `n_obs - 1`). -/
noncomputable def AContrib (p : LogParams) (seq : ℕ → ℕ) (T : ℕ) :
    ℕ → ℕ → ℝ :=
  fun i j => ∑ t ∈ Finset.range (T - 1), eexp (log_E p seq T i j t)

/-- Per-sequence contribution to `B_acc`: for each `t`,
`B_acc[:, seq[t]] += np.exp(log_gamma[:, t])`. -/
noncomputable def BContrib (p : LogParams) (seq : ℕ → ℕ) (T : ℕ) :
    ℕ → ℕ → ℝ :=
  fun s k => ∑ t ∈ Finset.range T, if seq t = k then eexp (log_gamma p seq T s t) else 0

/-- The three per-iteration accumulators of `HMM.EM`: `pi_acc`, `A_acc`,
`B_acc`. -/
abbrev EMAcc : Type := (ℕ → ℝ) × (ℕ → ℕ → ℝ) × (ℕ → ℕ → ℝ)

/-- The per-sequence accumulation of the E-step:
`pi_acc += np.exp(log_gamma[:, 0])`, `A_acc += np.sum(np.exp(log_E), axis=-1)`,
`B_acc[:, seq[t]] += np.exp(log_gamma[:, t])` for each `t`. -/
noncomputable def emAccumStep (p : LogParams) (T : ℕ) (acc : EMAcc)
    (sq : ℕ → ℕ) : EMAcc :=
  ((fun s => acc.1 s + piContrib p sq T s),
   (fun i j => acc.2.1 i j + AContrib p sq T i j),
   (fun s k => acc.2.2 s k + BContrib p sq T s k))

/-- One iteration of the `HMM.EM` loop: zero the three accumulators, fold the
per-sequence E-step contributions over the corpus, then (M-step) assign
`self.pi`, `self.A`, `self.B` through the property setters with the
normalized accumulators.  All per-sequence quantities are computed from the
parameters held at the start of the iteration; the setters run only at the
end. -/
noncomputable def emStep (T : ℕ) (seqs : List (ℕ → ℕ))
    (st : HMMState) : HMMState :=
  let p := stateLogParams st
  let acc := seqs.foldl (emAccumStep p T)
    ((fun _ => 0), (fun _ _ => 0), (fun _ _ => 0))
  setB (normalizeRows st.n_observable_states acc.2.2)
    (setA (normalizeRows st.n_hidden_states acc.2.1)
      (setPi (normalizeVec st.n_hidden_states acc.1) st))

/-- `HMM.EM(self, sequences, n_iter=100)`: runs the E/M loop
`for _ in range(self.n_iter)` — the iteration count stored at construction;
the `n_iter` argument of the call is not read by the loop. -/
noncomputable def EM (st : HMMState) (seqs : List (ℕ → ℕ)) (T : ℕ)
    (n_iter_arg : ℕ) : HMMState :=
  (emStep T seqs)^[st.n_iter] st

/-- Modelled from the spec: the categorical draw of `_choice` (missing
`_utils` module) — "cumulative-sum + uniform draw": the first index whose
cumulative probability exceeds the uniform draw `u`. -/
noncomputable def choiceAux (u : ℝ) : ℝ → ℕ → List ℝ → ℕ
  | _, i, [] => i
  | c, i, q :: rest => if u < c + q then i else choiceAux u (c + q) (i + 1) rest

/-- Modelled from the spec: `_choice(probas)` draws one index from the
categorical distribution `probas` using one uniform variate `u`. -/
noncomputable def _choice (probas : List ℝ) (u : ℝ) : ℕ :=
  choiceAux u 0 0 probas

/-- The observation loop of `_sample_one`: starting from hidden state `s`,
repeat `n` times: draw `obs` from `B[s]`, append it, draw the next state
from `A[s]`.  `stream idx` is the idx-th uniform variate of the sequence's
private generator.  Only the observations are kept; the hidden states are
discarded. -/
noncomputable def sampleLoop (A B : List (List ℝ)) (stream : ℕ → ℝ) :
    ℕ → ℕ → ℕ → List ℕ
  | 0, _, _ => []
  | n + 1, s, idx =>
      _choice (B.getD s []) (stream idx)
        :: sampleLoop A B stream n (_choice (A.getD s []) (stream (idx + 1))) (idx + 2)

/-- `_sample_one(n_obs, pi, A, B, seed)`: seeds a private generator (modelled
by the variate stream), draws the initial state from `pi`, then runs the
observation loop.  Returns the observation list only. -/
noncomputable def _sample_one (n_obs : ℕ) (pi : List ℝ) (A B : List (List ℝ))
    (stream : ℕ → ℝ) : List ℕ :=
  sampleLoop A B stream n_obs (_choice pi (stream 0)) 1

/-- `HMM.sample(n_seq, n_obs, seed)`: one `_sample_one` call per sequence,
each with its own derived sub-seed (modelled by `seedStream i`), collected
with `np.array` into a single `(n_seq, n_obs)` array of observations. -/
noncomputable def sample (n_seq n_obs : ℕ) (pi : List ℝ)
    (A B : List (List ℝ)) (seedStream : ℕ → ℕ → ℝ) : List (List ℕ) :=
  (List.range n_seq).map (fun i => _sample_one n_obs pi A B (seedStream i))

/-- Identity of a probability row checked by the validator: `init_probas`,
row `s` of `A`, or row `s` of `B`. -/
inductive RowId
  | piRow : RowId
  | aRow (s : ℕ) : RowId
  | bRow (s : ℕ) : RowId
deriving DecidableEq

/-- The payload of a failed `_check_array_sums_to_1`: which row failed and
the observed sum. -/
structure ValidationError where
  row : RowId
  observedSum : ℝ

/-- Construction failure of `HMM.__init__`: the shape `ValueError`
("inconsistent number of hidden states.") or a distribution validation
failure. -/
inductive HMMBuildError
  | shapeMismatch : HMMBuildError
  | invalidDistribution (e : ValidationError) : HMMBuildError

/-- Absolute tolerance of the row-sum validator (spec: "sums to 1 within
tolerance, e.g. 1e-8"). -/
noncomputable def sumTol : ℝ := 1e-8

/-- Modelled from the spec: `_check_array_sums_to_1` (missing `_utils`
module) — "verify the sum equals 1 within an absolute tolerance; on
violation, fail with a validation error naming which row and the observed
sum". -/
noncomputable def _check_array_sums_to_1 (v : List ℝ) (id : RowId) :
    Except ValidationError Unit :=
  if |v.sum - 1| ≤ sumTol then Except.ok () else Except.error ⟨id, v.sum⟩

/-- The row loop of `_check_matrices_conditioning`: for each `s`, check row
`s` of `A`, then row `s` of `B`, propagating the first failure.  (The loop
bound `n_hidden_states` equals the common length of both lists once the
shape check has passed.) -/
noncomputable def checkRowsAB :
    List (List ℝ) → List (List ℝ) → ℕ → Except ValidationError Unit
  | a :: as, b :: bs, s =>
      match _check_array_sums_to_1 a (RowId.aRow s) with
      | Except.error e => Except.error e
      | Except.ok _ =>
        match _check_array_sums_to_1 b (RowId.bRow s) with
        | Except.error e => Except.error e
        | Except.ok _ => checkRowsAB as bs (s + 1)
  | _, _, _ => Except.ok ()

/-- `HMM._check_matrices_conditioning`: validate `pi`, then each row of `A`
and `B`, propagating the first failure. -/
noncomputable def _check_matrices_conditioning (pi : List ℝ)
    (A B : List (List ℝ)) : Except ValidationError Unit :=
  match _check_array_sums_to_1 pi RowId.piRow with
  | Except.error e => Except.error e
  | Except.ok _ => checkRowsAB A B 0

/-- The validated model produced by a successful `HMM.__init__` (list view of
the tables, plus the dimensions derived from the shapes). -/
structure HMMModel where
  pi : List ℝ
  A : List (List ℝ)
  B : List (List ℝ)
  n_iter : ℕ
  n_hidden_states : ℕ
  n_observable_states : ℕ

/-- The shape condition of `HMM.__init__`:
`A.shape[0] == A.shape[1] == pi.shape[0] == B.shape[0]` (for rectangular
`A`, `A.shape[1]` is the length of its first row). -/
def shapesOK (pi : List ℝ) (A B : List (List ℝ)) : Prop :=
  A.length = (A.headD []).length ∧ (A.headD []).length = pi.length
    ∧ pi.length = B.length

instance (pi : List ℝ) (A B : List (List ℝ)) : Decidable (shapesOK pi A B) :=
  inferInstanceAs (Decidable (_ ∧ _ ∧ _))

/-- The row of the input tables named by a `RowId`. -/
def rowOf (pi : List ℝ) (A B : List (List ℝ)) : RowId → List ℝ
  | RowId.piRow => pi
  | RowId.aRow s => A.getD s []
  | RowId.bRow s => B.getD s []

/-- All distributions of the input sum to 1 within tolerance. -/
def rowSumsOK (pi : List ℝ) (A B : List (List ℝ)) : Prop :=
  |pi.sum - 1| ≤ sumTol ∧ (∀ r ∈ A, |r.sum - 1| ≤ sumTol)
    ∧ ∀ r ∈ B, |r.sum - 1| ≤ sumTol

/-- `HMM.__init__`: store the tables, derive the dimensions from the shapes,
raise `ValueError` on inconsistent hidden-state counts, then
unconditionally run `_check_matrices_conditioning`.  No partial model
escapes a failure. -/
noncomputable def HMM_init (pi : List ℝ) (A B : List (List ℝ))
    (n_iter : ℕ) : Except HMMBuildError HMMModel :=
  if shapesOK pi A B then
    match _check_matrices_conditioning pi A B with
    | Except.ok _ =>
        Except.ok ⟨pi, A, B, n_iter, A.length, (B.headD []).length⟩
    | Except.error e => Except.error (HMMBuildError.invalidDistribution e)
  else Except.error HMMBuildError.shapeMismatch

/-- Concrete two-state, two-symbol model state (identity transition and
emission tables, uniform initial distribution, `n_iter = 0`), the state with
which `EM`'s disregard of its call argument is exhibited. -/
noncomputable def stEx : HMMState where
  n_hidden_states := 2
  n_observable_states := 2
  init_probas := fun _ => 1 / 2
  transitions := fun i j => if i = j then 1 else 0
  emissions := fun s k => if s = k then 1 else 0
  n_iter := 0
  recompute_log_pi := true
  recompute_log_A := true
  recompute_log_B := true
  cached_log_pi := fun _ => ⊥
  cached_log_A := fun _ _ => ⊥
  cached_log_B := fun _ _ => ⊥

/-- The constant-zero observation sequence used with `stEx`. -/
def seqEx : ℕ → ℕ := fun _ => 0

/-- Concrete freshly-constructed model state (flags as `getattr` leaves them
after `__init__`: all reads recompute), with a zero probability entry. -/
noncomputable def stCache : HMMState where
  n_hidden_states := 2
  n_observable_states := 2
  init_probas := fun s => if s = 0 then 1 else 0
  transitions := fun _ _ => 1 / 2
  emissions := fun _ _ => 1 / 2
  n_iter := 10
  recompute_log_pi := true
  recompute_log_A := true
  recompute_log_B := true
  cached_log_pi := fun _ => 0
  cached_log_A := fun _ _ => 0
  cached_log_B := fun _ _ => 0

/-- The toy initial distribution of the repository's test fixture. -/
noncomputable def piToy : List ℝ := [0.6, 0.4]

/-- The toy transition matrix of the repository's test fixture. -/
noncomputable def AToy : List (List ℝ) := [[0.7, 0.3], [0.4, 0.6]]

/-- The toy emission matrix of the repository's test fixture. -/
noncomputable def BToy : List (List ℝ) := [[0.1, 0.4, 0.5], [0.6, 0.3, 0.1]]

/-! Basic facts about the extended-real exponential and logarithm. -/

theorem eexp_bot : eexp ⊥ = 0 := by simp [eexp]

theorem eexp_top : eexp ⊤ = 0 := by simp [eexp]

theorem eexp_coe (x : ℝ) : eexp (x : EReal) = Real.exp x := by
  rw [eexp, if_neg, EReal.toReal_coe]
  simp [EReal.coe_ne_bot, EReal.coe_ne_top]

theorem eexp_zero : eexp 0 = 1 := by
  rw [← EReal.coe_zero, eexp_coe, Real.exp_zero]

theorem eexp_nonneg (x : EReal) : 0 ≤ eexp x := by
  rw [eexp]
  split
  · exact le_refl 0
  · exact (Real.exp_pos _).le

theorem eexp_add (a b : EReal) : eexp (a + b) = eexp a * eexp b := by
  induction a using EReal.rec with
  | h_bot => rw [EReal.bot_add, eexp_bot, zero_mul]
  | h_real x =>
    induction b using EReal.rec with
    | h_bot => rw [EReal.add_bot, eexp_bot, mul_zero]
    | h_real y => rw [← EReal.coe_add, eexp_coe, eexp_coe, eexp_coe, Real.exp_add]
    | h_top => rw [EReal.coe_add_top, eexp_top, mul_zero]
  | h_top =>
    induction b using EReal.rec with
    | h_bot => rw [EReal.add_bot, eexp_bot, mul_zero]
    | h_real y => rw [EReal.top_add_coe, eexp_top, zero_mul]
    | h_top => rw [EReal.top_add_top, eexp_top, zero_mul]

theorem elog_of_pos {x : ℝ} (h : 0 < x) : elog x = ((Real.log x : ℝ) : EReal) :=
  if_neg (not_le.mpr h)

theorem elog_of_nonpos {x : ℝ} (h : x ≤ 0) : elog x = ⊥ := if_pos h

theorem elog_zero : elog 0 = ⊥ := elog_of_nonpos le_rfl

theorem elog_one : elog 1 = 0 := by
  rw [elog_of_pos one_pos, Real.log_one, EReal.coe_zero]

theorem eexp_elog {x : ℝ} (h : 0 ≤ x) : eexp (elog x) = x := by
  rcases h.eq_or_lt with h0 | hpos
  · rw [← h0, elog_zero, eexp_bot]
  · rw [elog_of_pos hpos, eexp_coe, Real.exp_log hpos]

theorem elog_mul {x y : ℝ} (hx : 0 ≤ x) (hy : 0 ≤ y) :
    elog (x * y) = elog x + elog y := by
  rcases hx.eq_or_lt with h0 | hxpos
  · rw [← h0, zero_mul, elog_zero, EReal.bot_add]
  · rcases hy.eq_or_lt with h0 | hypos
    · rw [← h0, mul_zero, elog_zero, EReal.add_bot]
    · rw [elog_of_pos (mul_pos hxpos hypos), elog_of_pos hxpos, elog_of_pos hypos,
        Real.log_mul (ne_of_gt hxpos) (ne_of_gt hypos), EReal.coe_add]

theorem elog_le_elog {x y : ℝ} (h : x ≤ y) : elog x ≤ elog y := by
  rcases le_or_lt x 0 with hx | hx
  · rw [elog_of_nonpos hx]; exact bot_le
  · rw [elog_of_pos hx, elog_of_pos (hx.trans_le h)]
    exact EReal.coe_le_coe_iff.mpr (Real.log_le_log hx h)

theorem elog_lt_elog {x y : ℝ} (hx : 0 ≤ x) (h : x < y) : elog x < elog y := by
  have hy : 0 < y := lt_of_le_of_lt hx h
  rcases hx.eq_or_lt with h0 | hxpos
  · rw [← h0, elog_zero, elog_of_pos hy]
    exact EReal.bot_lt_coe _
  · rw [elog_of_pos hxpos, elog_of_pos hy]
    exact EReal.coe_lt_coe_iff.mpr (Real.log_lt_log hxpos h)

theorem le_of_elog_le {x y : ℝ} (hy : 0 ≤ y) (h : elog x ≤ elog y) : x ≤ y := by
  by_contra hlt
  exact absurd h (not_le.mpr (elog_lt_elog hy (not_le.mp hlt)))

theorem eexp_elogsumexp (S : ℕ) (v : ℕ → EReal) :
    eexp (elogsumexp S v) = ∑ j ∈ Finset.range S, eexp (v j) :=
  eexp_elog (Finset.sum_nonneg fun _ _ => eexp_nonneg _)

/-! Unfolding equations and probability-space recurrences of the lattices. -/

theorem logAlpha_zero (p : LogParams) (seq : ℕ → ℕ) (s : ℕ) :
    logAlpha p seq s 0 = p.elpi s + p.elB s (seq 0) := by
  simp [logAlpha]

theorem logAlpha_succ (p : LogParams) (seq : ℕ → ℕ) (s t : ℕ) :
    logAlpha p seq s (t + 1)
      = elogsumexp p.S (fun j => logAlpha p seq j t + p.elA j s)
        + p.elB s (seq (t + 1)) := by
  simp [logAlpha]

theorem eexp_logAlpha_succ (p : LogParams) (seq : ℕ → ℕ) (s t : ℕ) :
    eexp (logAlpha p seq s (t + 1))
      = (∑ j ∈ Finset.range p.S, eexp (logAlpha p seq j t) * eexp (p.elA j s))
        * eexp (p.elB s (seq (t + 1))) := by
  rw [logAlpha_succ, eexp_add, eexp_elogsumexp]
  congr 1
  exact Finset.sum_congr rfl fun j _ => eexp_add _ _

theorem logBetaAux_zero (p : LogParams) (seq : ℕ → ℕ) (T s : ℕ) :
    logBetaAux p seq T 0 s = elog 1 := by
  simp [logBetaAux]

theorem logBetaAux_succ (p : LogParams) (seq : ℕ → ℕ) (T k s : ℕ) :
    logBetaAux p seq T (k + 1) s
      = elogsumexp p.S
          (fun j => p.elA s j + p.elB j (seq (T - 1 - k)) + logBetaAux p seq T k j) := by
  simp [logBetaAux]

theorem eexp_logBetaAux_zero (p : LogParams) (seq : ℕ → ℕ) (T s : ℕ) :
    eexp (logBetaAux p seq T 0 s) = 1 := by
  rw [logBetaAux_zero, elog_one, eexp_zero]

theorem eexp_logBetaAux_succ (p : LogParams) (seq : ℕ → ℕ) (T k s : ℕ) :
    eexp (logBetaAux p seq T (k + 1) s)
      = ∑ j ∈ Finset.range p.S,
          eexp (p.elA s j) * eexp (p.elB j (seq (T - 1 - k)))
            * eexp (logBetaAux p seq T k j) := by
  rw [logBetaAux_succ, eexp_elogsumexp]
  exact Finset.sum_congr rfl fun j _ => by rw [eexp_add, eexp_add]

/-- The forward-backward exchange: the total mass `Σ_s α[s,t]·β[s,t]` in
probability space is independent of the column, equal to the mass of the
last forward column.  Stated with the fuel index `k = (T-1) - t`. -/
theorem sum_alphaBeta (p : LogParams) (seq : ℕ → ℕ) (T : ℕ) :
    ∀ k, k ≤ T - 1 →
      (∑ s ∈ Finset.range p.S,
        eexp (logAlpha p seq s (T - 1 - k)) * eexp (logBetaAux p seq T k s))
      = ∑ s ∈ Finset.range p.S, eexp (logAlpha p seq s (T - 1)) := by
  intro k
  induction k with
  | zero =>
    intro _
    simp [eexp_logBetaAux_zero]
  | succ k ih =>
    intro hk
    have hk' : k ≤ T - 1 := (Nat.le_succ k).trans hk
    have ht : T - 1 - k = (T - 1 - (k + 1)) + 1 := by omega
    calc
      (∑ s ∈ Finset.range p.S,
          eexp (logAlpha p seq s (T - 1 - (k + 1)))
            * eexp (logBetaAux p seq T (k + 1) s))
        = ∑ s ∈ Finset.range p.S, ∑ j ∈ Finset.range p.S,
            eexp (logAlpha p seq s (T - 1 - (k + 1))) * eexp (p.elA s j)
              * (eexp (p.elB j (seq (T - 1 - k))) * eexp (logBetaAux p seq T k j)) := by
          refine Finset.sum_congr rfl fun s _ => ?_
          rw [eexp_logBetaAux_succ, Finset.mul_sum]
          exact Finset.sum_congr rfl fun j _ => by ring
      _ = ∑ j ∈ Finset.range p.S,
            (∑ s ∈ Finset.range p.S,
              eexp (logAlpha p seq s (T - 1 - (k + 1))) * eexp (p.elA s j))
              * (eexp (p.elB j (seq (T - 1 - k))) * eexp (logBetaAux p seq T k j)) := by
          rw [Finset.sum_comm]
          exact Finset.sum_congr rfl fun j _ => by rw [Finset.sum_mul]
      _ = ∑ j ∈ Finset.range p.S,
            eexp (logAlpha p seq j (T - 1 - k)) * eexp (logBetaAux p seq T k j) := by
          refine Finset.sum_congr rfl fun j _ => ?_
          rw [ht, eexp_logAlpha_succ]
          rw [← ht, mul_assoc]
      _ = ∑ s ∈ Finset.range p.S, eexp (logAlpha p seq s (T - 1)) := ih hk'

theorem log_likelihood_foldl {α : Type} (l : List α) (f : α → EReal) :
    ∀ a : EReal, l.foldl (fun acc x => acc + f x) a = a + (l.map f).sum := by
  induction l with
  | nil => intro a; simp
  | cons x xs ih =>
    intro a
    simp only [List.foldl_cons, List.map_cons, List.sum_cons]
    rw [ih, add_assoc]

theorem log_likelihood_eq_sum (p : LogParams) (T : ℕ) (seqs : List (ℕ → ℕ)) :
    log_likelihood p T seqs = (seqs.map (fun sq => _forward p sq T)).sum := by
  rw [log_likelihood, log_likelihood_foldl, zero_add]

theorem eexp_list_sum (l : List EReal) : eexp l.sum = (l.map eexp).prod := by
  induction l with
  | nil => simpa using eexp_zero
  | cons x xs ih => simp [eexp_add, ih]

/-- C1: `_forward` fills the lattice with
`log_alpha[s,0] = log_pi[s] + log_B[s, seq[0]]` and
`log_alpha[s,t] = logsumexp_j(log_alpha[j,t-1] + log_A[j,s]) + log_B[s, seq[t]]`
for `t ≥ 1`, returns `logsumexp_s(log_alpha[s, T-1])` as the sequence's
log-likelihood, and `log_likelihood` returns the sum of the per-sequence
log-likelihoods over the corpus. -/
theorem c1_forward_lattice_and_batch_sum (p : LogParams) (seq : ℕ → ℕ)
    (T : ℕ) (seqs : List (ℕ → ℕ)) :
    (∀ s, logAlpha p seq s 0 = p.elpi s + p.elB s (seq 0))
    ∧ (∀ t s, logAlpha p seq s (t + 1)
        = elogsumexp p.S (fun j => logAlpha p seq j t + p.elA j s)
          + p.elB s (seq (t + 1)))
    ∧ _forward p seq T = elogsumexp p.S (fun s => logAlpha p seq s (T - 1))
    ∧ log_likelihood p T seqs = (seqs.map (fun sq => _forward p sq T)).sum :=
  ⟨logAlpha_zero p seq, fun t s => logAlpha_succ p seq s t, rfl,
    log_likelihood_eq_sum p T seqs⟩

/-- C2: after `_forward` and `_backward` fill `log_alpha` and `log_beta` for
a sequence of length `T`, the value `logsumexp_s(log_alpha[s,t] + log_beta[s,t])`
is the same for every column `t < T` and equals the log-likelihood returned by
`_forward` alone. -/
theorem c2_forward_backward_invariant (p : LogParams) (seq : ℕ → ℕ)
    (T t : ℕ) (ht : t < T) :
    elogsumexp p.S (fun s => logAlpha p seq s t + logBeta p seq T s t)
      = _forward p seq T := by
  have hk : T - 1 - t ≤ T - 1 := Nat.sub_le _ _
  have hT : T - 1 - (T - 1 - t) = t := by omega
  have hsum : (∑ s ∈ Finset.range p.S,
      eexp (logAlpha p seq s t + logBeta p seq T s t))
      = ∑ s ∈ Finset.range p.S, eexp (logAlpha p seq s (T - 1)) := by
    rw [← sum_alphaBeta p seq T (T - 1 - t) hk]
    exact Finset.sum_congr rfl fun s _ => by rw [eexp_add, logBeta, hT]
  rw [elogsumexp, hsum]
  rfl

/-- Witness for C2 at a concrete instance (`S = 1`, `T = 2`, `t = 1`). -/
theorem c2_forward_backward_invariant_witness :
    (1 : ℕ) < 2
    ∧ elogsumexp (LogParams.mk 1 (fun _ => 0) (fun _ _ => 0) (fun _ _ => 0)).S
        (fun s => logAlpha ⟨1, fun _ => 0, fun _ _ => 0, fun _ _ => 0⟩ (fun _ => 0) s 1
          + logBeta ⟨1, fun _ => 0, fun _ _ => 0, fun _ _ => 0⟩ (fun _ => 0) 2 s 1)
      = _forward ⟨1, fun _ => 0, fun _ _ => 0, fun _ _ => 0⟩ (fun _ => 0) 2 :=
  ⟨by norm_num,
    c2_forward_backward_invariant ⟨1, fun _ => 0, fun _ _ => 0, fun _ _ => 0⟩
      (fun _ => 0) 2 1 (by norm_num)⟩

/-! Properties of `np.argmax` (first maximal index) and the Viterbi
lattice. -/

theorem argmaxFirst_succ (S : ℕ) (v : ℕ → EReal) :
    argmaxFirst (S + 1) v
      = if v (argmaxFirst S v) < v S then S else argmaxFirst S v := by
  rw [argmaxFirst, argmaxFirst, List.range_succ, List.foldl_append,
    List.foldl_cons, List.foldl_nil]

theorem argmaxFirst_spec (v : ℕ → EReal) :
    ∀ S, 0 < S →
      argmaxFirst S v < S ∧ (∀ j < S, v j ≤ v (argmaxFirst S v))
        ∧ ∀ j < argmaxFirst S v, v j < v (argmaxFirst S v) := by
  intro S
  induction S with
  | zero => intro h; exact absurd h (lt_irrefl 0)
  | succ S ih =>
    intro _
    rcases Nat.eq_zero_or_pos S with hS | hS
    · subst hS
      have h0 : argmaxFirst 0 v = 0 := rfl
      have h1 : argmaxFirst 1 v = 0 := by
        rw [argmaxFirst_succ, h0, ite_self]
      refine ⟨by rw [h1]; exact Nat.zero_lt_one, ?_, ?_⟩
      · intro j hj
        interval_cases j
        rw [h1]
      · intro j hj
        rw [h1] at hj
        exact absurd hj (Nat.not_lt_zero j)
    · obtain ⟨hlt, hle, hmin⟩ := ih hS
      rw [argmaxFirst_succ]
      by_cases hcase : v (argmaxFirst S v) < v S
      · rw [if_pos hcase]
        refine ⟨Nat.lt_succ_self S, ?_, ?_⟩
        · intro j hj
          rcases Nat.lt_succ_iff_lt_or_eq.mp hj with hj' | hj'
          · exact ((hle j hj').trans hcase.le)
          · subst hj'; exact le_refl _
        · intro j hj
          exact lt_of_le_of_lt (hle j hj) hcase
      · rw [if_neg hcase]
        refine ⟨hlt.trans (Nat.lt_succ_self S), ?_, hmin⟩
        intro j hj
        rcases Nat.lt_succ_iff_lt_or_eq.mp hj with hj' | hj'
        · exact hle j hj'
        · subst hj'; exact not_lt.mp hcase

theorem logV_zero (p : LogParams) (seq : ℕ → ℕ) (s : ℕ) :
    logV p seq s 0 = p.elpi s + p.elB s (seq 0) := by
  simp [logV]

theorem backPath_succ (p : LogParams) (seq : ℕ → ℕ) (s t : ℕ) :
    backPath p seq s (t + 1)
      = argmaxFirst p.S (fun j => logV p seq j t + p.elA j s) := by
  simp [backPath]

theorem logV_succ (p : LogParams) (seq : ℕ → ℕ) (s t : ℕ) :
    logV p seq s (t + 1)
      = logV p seq (backPath p seq s (t + 1)) t
          + p.elA (backPath p seq s (t + 1)) s + p.elB s (seq (t + 1)) := by
  rw [backPath_succ]
  simp [logV]

/-- Any state assignment with states below `S` scores at most the Viterbi
lattice value at its endpoint. -/
theorem scoreUpTo_le_logV (p : LogParams) (seq : ℕ → ℕ) (hS : 0 < p.S)
    (path : ℕ → ℕ) (hpath : ∀ u, path u < p.S) :
    ∀ t, scoreUpTo p seq path t ≤ logV p seq (path t) t := by
  intro t
  induction t with
  | zero => rw [scoreUpTo, logV_zero]
  | succ t ih =>
    have h1 : scoreUpTo p seq path (t + 1)
        ≤ logV p seq (path t) t
            + (p.elA (path t) (path (t + 1)) + p.elB (path (t + 1)) (seq (t + 1))) := by
      rw [scoreUpTo]
      exact add_le_add_right ih _
    have h2 : logV p seq (path t) t + p.elA (path t) (path (t + 1))
        ≤ logV p seq (backPath p seq (path (t + 1)) (t + 1)) t
            + p.elA (backPath p seq (path (t + 1)) (t + 1)) (path (t + 1)) := by
      rw [backPath_succ]
      exact (argmaxFirst_spec (fun j => logV p seq j t + p.elA j (path (t + 1)))
        p.S hS).2.1 (path t) (hpath t)
    calc scoreUpTo p seq path (t + 1)
        ≤ logV p seq (path t) t
            + (p.elA (path t) (path (t + 1)) + p.elB (path (t + 1)) (seq (t + 1))) := h1
      _ = logV p seq (path t) t + p.elA (path t) (path (t + 1))
            + p.elB (path (t + 1)) (seq (t + 1)) := by rw [add_assoc]
      _ ≤ logV p seq (backPath p seq (path (t + 1)) (t + 1)) t
            + p.elA (backPath p seq (path (t + 1)) (t + 1)) (path (t + 1))
            + p.elB (path (t + 1)) (seq (t + 1)) := add_le_add_right h2 _
      _ = logV p seq (path (t + 1)) (t + 1) := (logV_succ p seq (path (t + 1)) t).symm

theorem btState_lt (p : LogParams) (seq : ℕ → ℕ) (T : ℕ) (hS : 0 < p.S) :
    ∀ k, btState p seq T k < p.S := by
  intro k
  cases k with
  | zero => exact (argmaxFirst_spec _ p.S hS).1
  | succ k =>
    have : btState p seq T (k + 1)
        = backPath p seq (btState p seq T k) (T - 1 - k) := by rw [btState]
    rw [this, backPath]
    exact (argmaxFirst_spec _ p.S hS).1

/-- The backtracked chain is consistent with `back_path`: the state recorded
for time `t` is the back link of the state recorded for time `t + 1`. -/
theorem btState_chain (p : LogParams) (seq : ℕ → ℕ) (T t : ℕ)
    (h : t + 1 ≤ T - 1) :
    backPath p seq (btState p seq T (T - 1 - (t + 1))) (t + 1)
      = btState p seq T (T - 1 - t) := by
  have h1 : T - 1 - (t + 1) + 1 = T - 1 - t := by omega
  have h2 : T - 1 - (T - 1 - (t + 1)) = t + 1 := by omega
  conv_rhs => rw [← h1]
  rw [btState, h2]

/-- The backtracked path attains the Viterbi lattice value at every column. -/
theorem scoreUpTo_btState (p : LogParams) (seq : ℕ → ℕ) (T : ℕ) :
    ∀ t, t ≤ T - 1 →
      scoreUpTo p seq (fun u => btState p seq T (T - 1 - u)) t
        = logV p seq (btState p seq T (T - 1 - t)) t := by
  intro t
  induction t with
  | zero => intro _; rw [scoreUpTo, logV_zero]
  | succ t ih =>
    intro ht
    have ht' : t ≤ T - 1 := (Nat.le_succ t).trans ht
    rw [scoreUpTo, ih ht', logV_succ, btState_chain p seq T t ht, add_assoc]

/-- Probability-space scores are non-negative for non-negative tables. -/
theorem realScoreUpTo_nonneg (pi : ℕ → ℝ) (A B : ℕ → ℕ → ℝ)
    (seq path : ℕ → ℕ) (hpi : ∀ s, 0 ≤ pi s) (hA : ∀ i j, 0 ≤ A i j)
    (hB : ∀ s k, 0 ≤ B s k) :
    ∀ t, 0 ≤ realScoreUpTo pi A B seq path t := by
  intro t
  induction t with
  | zero => exact mul_nonneg (hpi _) (hB _ _)
  | succ t ih => exact mul_nonneg ih (mul_nonneg (hA _ _) (hB _ _))

/-- The log-space path score of `_viterbi` is the log of the joint
probability of (observations, state path). -/
theorem elog_realScoreUpTo (S : ℕ) (pi : ℕ → ℝ) (A B : ℕ → ℕ → ℝ)
    (seq path : ℕ → ℕ) (hpi : ∀ s, 0 ≤ pi s) (hA : ∀ i j, 0 ≤ A i j)
    (hB : ∀ s k, 0 ≤ B s k) :
    ∀ t, elog (realScoreUpTo pi A B seq path t)
      = scoreUpTo (toLogParams S pi A B) seq path t := by
  intro t
  induction t with
  | zero =>
    rw [realScoreUpTo, scoreUpTo, elog_mul (hpi _) (hB _ _)]
    rfl
  | succ t ih =>
    rw [realScoreUpTo, scoreUpTo,
      elog_mul (realScoreUpTo_nonneg pi A B seq path hpi hA hB t)
        (mul_nonneg (hA _ _) (hB _ _)),
      elog_mul (hA _ _) (hB _ _), ih]
    rfl

theorem decodeOne_getD (p : LogParams) (seq : ℕ → ℕ) (T t : ℕ) (ht : t < T) :
    (decodeOne p seq T).getD t 0 = btState p seq T (T - 1 - t) := by
  have hlen : t < (decodeOne p seq T).length := by
    rw [decodeOne, List.length_map, List.length_range]; exact ht
  rw [List.getD_eq_getElem _ _ hlen]
  simp [decodeOne]

/-- C3: for a non-negative model with `S ≥ 1` hidden states and a sequence of
length `T ≥ 1`, the path produced by `decode` (via `_viterbi` and
`_get_best_path`) has length `T`, its entries are the backtracked chain of
states (all below `S`), and it attains the maximum joint probability
`P(observations, state path)` over all state assignments with states below
`S`; ties are resolved by the first (smallest) index attaining the maximum,
both in each `back_path` entry and at the final column. -/
theorem c3_viterbi_decode_optimal (S : ℕ) (pi : ℕ → ℝ) (A B : ℕ → ℕ → ℝ)
    (seq : ℕ → ℕ) (T : ℕ) (hS : 0 < S) (hT : 0 < T)
    (hpi : ∀ s, 0 ≤ pi s) (hA : ∀ i j, 0 ≤ A i j) (hB : ∀ s k, 0 ≤ B s k) :
    (decodeOne (toLogParams S pi A B) seq T).length = T
    ∧ (∀ t, t < T →
        (decodeOne (toLogParams S pi A B) seq T).getD t 0
            = btState (toLogParams S pi A B) seq T (T - 1 - t)
          ∧ (decodeOne (toLogParams S pi A B) seq T).getD t 0 < S)
    ∧ (∀ path : ℕ → ℕ, (∀ u, path u < S) →
        realScoreUpTo pi A B seq path (T - 1)
          ≤ realScoreUpTo pi A B seq
              (fun u => btState (toLogParams S pi A B) seq T (T - 1 - u)) (T - 1))
    ∧ (∀ j, j < S →
        logV (toLogParams S pi A B) seq j (T - 1)
          ≤ logV (toLogParams S pi A B) seq
              (btState (toLogParams S pi A B) seq T 0) (T - 1))
    ∧ (∀ j, j < btState (toLogParams S pi A B) seq T 0 →
        logV (toLogParams S pi A B) seq j (T - 1)
          < logV (toLogParams S pi A B) seq
              (btState (toLogParams S pi A B) seq T 0) (T - 1))
    ∧ ∀ s t,
        (∀ j, j < S →
          logV (toLogParams S pi A B) seq j t + (toLogParams S pi A B).elA j s
            ≤ logV (toLogParams S pi A B) seq
                  (backPath (toLogParams S pi A B) seq s (t + 1)) t
              + (toLogParams S pi A B).elA
                  (backPath (toLogParams S pi A B) seq s (t + 1)) s)
        ∧ ∀ j, j < backPath (toLogParams S pi A B) seq s (t + 1) →
            logV (toLogParams S pi A B) seq j t + (toLogParams S pi A B).elA j s
              < logV (toLogParams S pi A B) seq
                    (backPath (toLogParams S pi A B) seq s (t + 1)) t
                + (toLogParams S pi A B).elA
                    (backPath (toLogParams S pi A B) seq s (t + 1)) s := by
  set p := toLogParams S pi A B with hp
  have hpS : 0 < p.S := hS
  have hbt0 : btState p seq T 0 = argmaxFirst p.S (fun s => logV p seq s (T - 1)) := by
    rw [btState]
  refine ⟨?_, ?_, ?_, ?_, ?_, ?_⟩
  · rw [decodeOne, List.length_map, List.length_range]
  · intro t ht
    refine ⟨decodeOne_getD p seq T t ht, ?_⟩
    rw [decodeOne_getD p seq T t ht]
    exact btState_lt p seq T hpS _
  · intro path hpath
    have hbt : ∀ u, (fun u => btState p seq T (T - 1 - u)) u < S :=
      fun u => btState_lt p seq T hpS _
    apply le_of_elog_le
      (realScoreUpTo_nonneg pi A B seq _ hpi hA hB (T - 1))
    rw [elog_realScoreUpTo S pi A B seq path hpi hA hB,
      elog_realScoreUpTo S pi A B seq _ hpi hA hB, ← hp]
    have hfin : scoreUpTo p seq (fun u => btState p seq T (T - 1 - u)) (T - 1)
        = logV p seq (btState p seq T 0) (T - 1) := by
      have := scoreUpTo_btState p seq T (T - 1) le_rfl
      rwa [Nat.sub_self] at this
    rw [hfin]
    calc scoreUpTo p seq path (T - 1)
        ≤ logV p seq (path (T - 1)) (T - 1) :=
          scoreUpTo_le_logV p seq hpS path hpath (T - 1)
      _ ≤ logV p seq (btState p seq T 0) (T - 1) := by
          rw [hbt0]
          exact (argmaxFirst_spec (fun s => logV p seq s (T - 1)) p.S hpS).2.1
            (path (T - 1)) (hpath (T - 1))
  · intro j hj
    rw [hbt0]
    exact (argmaxFirst_spec (fun s => logV p seq s (T - 1)) p.S hpS).2.1 j hj
  · intro j hj
    rw [hbt0] at hj ⊢
    exact (argmaxFirst_spec (fun s => logV p seq s (T - 1)) p.S hpS).2.2 j hj
  · intro s t
    constructor
    · intro j hj
      rw [backPath_succ]
      exact (argmaxFirst_spec (fun j => logV p seq j t + p.elA j s) p.S hpS).2.1 j hj
    · intro j hj
      rw [backPath_succ] at hj ⊢
      exact (argmaxFirst_spec (fun j => logV p seq j t + p.elA j s) p.S hpS).2.2 j hj

/-- Witness for C3 at a concrete instance (`S = 1`, `T = 1`, uniform
deterministic tables). -/
theorem c3_viterbi_decode_optimal_witness :
    (decodeOne (toLogParams 1 (fun _ => 1) (fun _ _ => 1) (fun _ _ => 1))
        (fun _ => 0) 1).length = 1
    ∧ realScoreUpTo (fun _ => 1) (fun _ _ => 1) (fun _ _ => 1) (fun _ => 0)
          (fun _ => 0) (1 - 1)
        ≤ realScoreUpTo (fun _ => 1) (fun _ _ => 1) (fun _ _ => 1) (fun _ => 0)
            (fun u => btState (toLogParams 1 (fun _ => 1) (fun _ _ => 1) (fun _ _ => 1))
              (fun _ => 0) 1 (1 - 1 - u)) (1 - 1) := by
  have h := c3_viterbi_decode_optimal 1 (fun _ => 1) (fun _ _ => 1) (fun _ _ => 1)
    (fun _ => 0) 1 (by norm_num) (by norm_num)
    (fun _ => by norm_num) (fun _ _ => by norm_num) (fun _ _ => by norm_num)
  exact ⟨h.1, h.2.2.1 (fun _ => 0) (fun _ => by norm_num)⟩

/-- C10: `likelihood` returns exactly `exp(log_likelihood(corpus))`, a single
scalar equal to the product of the per-sequence likelihoods. -/
theorem c10_likelihood_is_exp_of_log_likelihood (p : LogParams) (T : ℕ)
    (seqs : List (ℕ → ℕ)) :
    likelihood p T seqs = eexp (log_likelihood p T seqs)
    ∧ likelihood p T seqs
        = (seqs.map (fun sq => eexp (_forward p sq T))).prod := by
  refine ⟨rfl, ?_⟩
  rw [likelihood, log_likelihood_eq_sum, eexp_list_sum, List.map_map]
  rfl

/-! The EM accumulators: folding the per-sequence contributions equals the
sum over the corpus, starting from the zero accumulators. -/

theorem emAccum_fst (p : LogParams) (T : ℕ) :
    ∀ (l : List (ℕ → ℕ)) (a : EMAcc),
      (l.foldl (emAccumStep p T) a).1
        = fun s => a.1 s + (l.map (fun sq => piContrib p sq T s)).sum := by
  intro l
  induction l with
  | nil => intro a; funext s; simp
  | cons x xs ih =>
    intro a
    rw [List.foldl_cons, ih]
    funext s
    simp [emAccumStep, add_assoc]

theorem emAccum_snd_fst (p : LogParams) (T : ℕ) :
    ∀ (l : List (ℕ → ℕ)) (a : EMAcc),
      (l.foldl (emAccumStep p T) a).2.1
        = fun i j => a.2.1 i j + (l.map (fun sq => AContrib p sq T i j)).sum := by
  intro l
  induction l with
  | nil => intro a; funext i j; simp
  | cons x xs ih =>
    intro a
    rw [List.foldl_cons, ih]
    funext i j
    simp [emAccumStep, add_assoc]

theorem emAccum_snd_snd (p : LogParams) (T : ℕ) :
    ∀ (l : List (ℕ → ℕ)) (a : EMAcc),
      (l.foldl (emAccumStep p T) a).2.2
        = fun s k => a.2.2 s k + (l.map (fun sq => BContrib p sq T s k)).sum := by
  intro l
  induction l with
  | nil => intro a; funext s k; simp
  | cons x xs ih =>
    intro a
    rw [List.foldl_cons, ih]
    funext s k
    simp [emAccumStep, add_assoc]

theorem emStep_init_probas (T : ℕ) (seqs : List (ℕ → ℕ)) (st : HMMState) :
    (emStep T seqs st).init_probas
      = normalizeVec st.n_hidden_states
          (fun s => (seqs.map (fun sq => piContrib (stateLogParams st) sq T s)).sum) := by
  simp only [emStep, setB, setA, setPi]
  rw [emAccum_fst]
  funext s
  simp

theorem emStep_transitions (T : ℕ) (seqs : List (ℕ → ℕ)) (st : HMMState) :
    (emStep T seqs st).transitions
      = normalizeRows st.n_hidden_states
          (fun i j => (seqs.map (fun sq => AContrib (stateLogParams st) sq T i j)).sum) := by
  simp only [emStep, setB, setA, setPi]
  rw [emAccum_snd_fst]
  funext i j
  simp

theorem emStep_emissions (T : ℕ) (seqs : List (ℕ → ℕ)) (st : HMMState) :
    (emStep T seqs st).emissions
      = normalizeRows st.n_observable_states
          (fun s k => (seqs.map (fun sq => BContrib (stateLogParams st) sq T s k)).sum) := by
  simp only [emStep, setB, setA, setPi]
  rw [emAccum_snd_snd]
  funext s k
  simp

/-- C4: each EM iteration starts its three accumulators at zero and, per
sequence, computes `log_E[i,j,t] = log_alpha[i,t] + log_A[i,j] +
log_B[j,seq[t+1]] + log_beta[j,t+1] − L` and `log_gamma[:,t] = log_alpha[:,t]
+ log_beta[:,t] − L` from the parameters held at the start of the iteration;
it adds `exp(log_gamma[:,0])` to the π-accumulator, `Σ_t exp(log_E)` to the
A-accumulator and `exp(log_gamma[:,t])` to column `seq[t]` of the
B-accumulator; the new tables are the normalized accumulators, installed
through the three setters together at the end of the iteration (each marking
its log cache stale), never mid-iteration — every accumulator below is a
function of the tables `st` held when the iteration began. -/
theorem c4_em_iteration_accumulators_and_m_step (T : ℕ)
    (seqs : List (ℕ → ℕ)) (st : HMMState) :
    (emStep T seqs st).init_probas
      = normalizeVec st.n_hidden_states (fun s =>
          (seqs.map (fun sq => eexp (log_gamma (stateLogParams st) sq T s 0))).sum)
    ∧ (emStep T seqs st).transitions
      = normalizeRows st.n_hidden_states (fun i j =>
          (seqs.map (fun sq => ∑ t ∈ Finset.range (T - 1),
            eexp (log_E (stateLogParams st) sq T i j t))).sum)
    ∧ (emStep T seqs st).emissions
      = normalizeRows st.n_observable_states (fun s k =>
          (seqs.map (fun sq => ∑ t ∈ Finset.range T,
            if sq t = k then eexp (log_gamma (stateLogParams st) sq T s t) else 0)).sum)
    ∧ (∀ sq i j t, log_E (stateLogParams st) sq T i j t
        = logAlpha (stateLogParams st) sq i t + (stateLogParams st).elA i j
          + (stateLogParams st).elB j (sq (t + 1))
          + logBeta (stateLogParams st) sq T j (t + 1)
          - _forward (stateLogParams st) sq T)
    ∧ (∀ sq s t, log_gamma (stateLogParams st) sq T s t
        = logAlpha (stateLogParams st) sq s t + logBeta (stateLogParams st) sq T s t
          - _forward (stateLogParams st) sq T)
    ∧ (emStep T seqs st).recompute_log_pi = true
    ∧ (emStep T seqs st).recompute_log_A = true
    ∧ (emStep T seqs st).recompute_log_B = true
    ∧ (emStep T seqs st).n_hidden_states = st.n_hidden_states
    ∧ (emStep T seqs st).n_observable_states = st.n_observable_states
    ∧ (emStep T seqs st).n_iter = st.n_iter := by
  refine ⟨emStep_init_probas T seqs st, emStep_transitions T seqs st,
    emStep_emissions T seqs st, fun _ _ _ _ => rfl, fun _ _ _ => rfl,
    ?_, ?_, ?_, ?_, ?_, ?_⟩
  all_goals simp [emStep, setB, setA, setPi]

/-- C5, amended: `EM(corpus, n)` executes its E-step/M-step loop exactly
`self.n_iter` times — the count fixed at construction — mutating `pi`, `A`,
`B` in place and never stopping early; the `n_iter` argument of the call is
ignored. -/
theorem c5_em_runs_constructor_iteration_count (st : HMMState)
    (seqs : List (ℕ → ℕ)) (T n m : ℕ) :
    EM st seqs T n = (emStep T seqs)^[st.n_iter] st
    ∧ EM st seqs T n = EM st seqs T m :=
  ⟨rfl, rfl⟩

/-- C5, counterexample: with `stEx` built with constructor count `0`, the
call `EM(corpus, 1)` does not perform the single iteration its call argument
requests — its result differs from one application of the loop body (which
would change `pi[0]` from `1/2` to `1`). -/
theorem c5_em_ignores_call_argument :
    EM stEx [seqEx] 2 1 ≠ emStep 2 [seqEx] stEx := by
  set p := stateLogParams stEx with hp
  have epi : ∀ s, p.elpi s = elog (1 / 2) := fun _ => rfl
  have eA : ∀ i j, p.elA i j = elog (if i = j then (1 : ℝ) else 0) := fun _ _ => rfl
  have eB : ∀ s k, p.elB s k = elog (if s = k then (1 : ℝ) else 0) := fun _ _ => rfl
  have hS : p.S = 2 := rfl
  have hhalf : (0 : ℝ) < 1 / 2 := by norm_num
  have eA00 : p.elA 0 0 = 0 := by rw [eA]; norm_num [elog_one]
  have eA01 : p.elA 0 1 = ⊥ := by rw [eA]; norm_num [elog_zero]
  have eA10 : p.elA 1 0 = ⊥ := by rw [eA]; norm_num [elog_zero]
  have eA11 : p.elA 1 1 = 0 := by rw [eA]; norm_num [elog_one]
  have eB00 : p.elB 0 0 = 0 := by rw [eB]; norm_num [elog_one]
  have eB10 : p.elB 1 0 = ⊥ := by rw [eB]; norm_num [elog_zero]
  have hseq : ∀ t, seqEx t = 0 := fun _ => rfl
  have ha00 : logAlpha p seqEx 0 0 = elog (1 / 2) := by
    rw [logAlpha_zero, hseq, epi, eB00, add_zero]
  have ha10 : logAlpha p seqEx 1 0 = ⊥ := by
    rw [logAlpha_zero, hseq, epi, eB10, EReal.add_bot]
  have ha01 : logAlpha p seqEx 0 1 = elog (1 / 2) := by
    show logAlpha p seqEx 0 (0 + 1) = elog (1 / 2)
    rw [logAlpha_succ, elogsumexp, hS, Finset.sum_range_succ,
      Finset.sum_range_succ, Finset.sum_range_zero, ha00, ha10, eA00, eA10,
      add_zero, EReal.bot_add, eexp_bot, add_zero, zero_add,
      eexp_elog hhalf.le, hseq, eB00, add_zero]
  have ha11 : logAlpha p seqEx 1 1 = ⊥ := by
    show logAlpha p seqEx 1 (0 + 1) = ⊥
    rw [logAlpha_succ, elogsumexp, hS, Finset.sum_range_succ,
      Finset.sum_range_succ, Finset.sum_range_zero, ha00, ha10, eA01, eA11,
      EReal.add_bot, add_zero, eexp_bot, hseq, eB10]
    norm_num [elog_zero, EReal.add_bot]
  have hL : _forward p seqEx 2 = elog (1 / 2) := by
    show elogsumexp p.S (fun s => logAlpha p seqEx s 1) = elog (1 / 2)
    rw [elogsumexp, hS, Finset.sum_range_succ, Finset.sum_range_succ,
      Finset.sum_range_zero, ha01, ha11, eexp_bot, add_zero, zero_add,
      eexp_elog hhalf.le]
  have hb00 : logBeta p seqEx 2 0 0 = 0 := by
    show logBetaAux p seqEx 2 (0 + 1) 0 = 0
    rw [logBetaAux_succ, elogsumexp, hS, Finset.sum_range_succ,
      Finset.sum_range_succ, Finset.sum_range_zero, hseq, logBetaAux_zero,
      logBetaAux_zero, elog_one, eA00, eA01, eB00, eB10]
    norm_num [EReal.bot_add, eexp_zero, eexp_bot, elog_one]
  have hγ0 : piContrib p seqEx 2 0 = 1 := by
    rw [piContrib, log_gamma, ha00, hb00, hL, add_zero, elog_of_pos hhalf,
      ← EReal.coe_sub, sub_self, EReal.coe_zero, eexp_zero]
  have hγ1 : piContrib p seqEx 2 1 = 0 := by
    rw [piContrib, log_gamma, ha10, EReal.bot_add, EReal.bot_sub, eexp_bot]
  have hEM : EM stEx [seqEx] 2 1 = stEx := rfl
  have hstep : (emStep 2 [seqEx] stEx).init_probas 0 = 1 := by
    rw [emStep_init_probas, ← hp]
    have hn : stEx.n_hidden_states = 2 := rfl
    rw [normalizeVec, hn, Finset.sum_range_succ, Finset.sum_range_succ,
      Finset.sum_range_zero]
    simp only [List.map_cons, List.map_nil, List.sum_cons, List.sum_nil]
    rw [hγ0, hγ1]
    norm_num
  intro h
  have h2 := congrArg (fun x : HMMState => x.init_probas 0) h
  dsimp only at h2
  rw [hEM, hstep] at h2
  have h3 : (1 / 2 : ℝ) = 1 := h2
  norm_num at h3

/-- C9 (code-bug exhibit): on a freshly constructed model (recompute flags
left set, as `getattr` defaults them) every read of `_log_pi` recomputes.
The read returns the elementwise natural log of the current table (zero
entries mapping to `-inf`), but the flag is still set after the read, so the
immediately following read — with no intervening write — takes the recompute
branch again instead of returning the cached value.  The setters do mark
exactly their own table's log stale and no other's. -/
theorem c9_log_read_always_recomputes :
    stCache.recompute_log_pi = true
    ∧ (getLogPi stCache).1 = (fun s => elog (stCache.init_probas s))
    ∧ (getLogPi stCache).1 1 = ⊥
    ∧ ((getLogPi stCache).2).recompute_log_pi = true
    ∧ ((getLogPi stCache).2).init_probas = stCache.init_probas
    ∧ (getLogPi ((getLogPi stCache).2)).1
        = (fun s => elog (stCache.init_probas s))
    ∧ (∀ v : ℕ → ℝ, (setPi v stCache).recompute_log_pi = true
        ∧ (setPi v stCache).recompute_log_A = stCache.recompute_log_A
        ∧ (setPi v stCache).recompute_log_B = stCache.recompute_log_B)
    ∧ (∀ v : ℕ → ℕ → ℝ, (setA v stCache).recompute_log_A = true
        ∧ (setA v stCache).recompute_log_pi = stCache.recompute_log_pi
        ∧ (setA v stCache).recompute_log_B = stCache.recompute_log_B)
    ∧ ∀ v : ℕ → ℕ → ℝ, (setB v stCache).recompute_log_B = true
        ∧ (setB v stCache).recompute_log_pi = stCache.recompute_log_pi
        ∧ (setB v stCache).recompute_log_A = stCache.recompute_log_A := by
  refine ⟨rfl, ?_, ?_, ?_, ?_, ?_, ?_, ?_, ?_⟩
  · simp [getLogPi, stCache]
  · simp [getLogPi, stCache, elog_zero]
  · simp [getLogPi, stCache]
  · simp [getLogPi, stCache]
  · simp [getLogPi, stCache]
  · intro v; exact ⟨rfl, rfl, rfl⟩
  · intro v; exact ⟨rfl, rfl, rfl⟩
  · intro v; exact ⟨rfl, rfl, rfl⟩

theorem sampleLoop_length (A B : List (List ℝ)) (stream : ℕ → ℝ) :
    ∀ n s idx, (sampleLoop A B stream n s idx).length = n := by
  intro n
  induction n with
  | zero => intro s idx; rfl
  | succ n ih => intro s idx; simp [sampleLoop, ih]

/-- C7 (code-bug exhibit): at the failing input of the repository's own
`test_sample` (`n_seq = 20`, `n_obs = 10`), `sample` evaluates to a single
`(20, 10)` array — observation sequences only.  `_sample_one` discards the
hidden states it traverses, so no pair of parallel arrays is produced. -/
theorem c7_sample_single_observation_array :
    (sample 20 10 piToy AToy BToy (fun _ _ => 1 / 2)).length = 20
    ∧ ((sample 20 10 piToy AToy BToy (fun _ _ => 1 / 2)).map List.length)
        = List.replicate 20 10 := by
  constructor
  · rw [sample, List.length_map, List.length_range]
  · rw [sample, List.map_map]
    have h : (List.length ∘ fun i => _sample_one 10 piToy AToy BToy
        ((fun _ _ => (1 / 2 : ℝ)) i)) = fun _ : ℕ => 10 := by
      funext i
      simp [_sample_one, sampleLoop_length]
    rw [h]
    rfl

/-! The constructor's validation. -/

theorem check1_ok_iff (v : List ℝ) (id : RowId) :
    _check_array_sums_to_1 v id = Except.ok () ↔ |v.sum - 1| ≤ sumTol := by
  rw [_check_array_sums_to_1]
  split_ifs with h <;> simp [h]

theorem check1_error {v : List ℝ} {id : RowId} {e : ValidationError}
    (h : _check_array_sums_to_1 v id = Except.error e) :
    e = ⟨id, v.sum⟩ ∧ ¬ |v.sum - 1| ≤ sumTol := by
  rw [_check_array_sums_to_1] at h
  split_ifs at h with hc
  exact ⟨(Except.error.inj h).symm, hc⟩

theorem checkRowsAB_ok_iff :
    ∀ (as bs : List (List ℝ)) (s : ℕ), as.length = bs.length →
      (checkRowsAB as bs s = Except.ok ()
        ↔ (∀ r ∈ as, |r.sum - 1| ≤ sumTol) ∧ ∀ r ∈ bs, |r.sum - 1| ≤ sumTol) := by
  intro as
  induction as with
  | nil =>
    intro bs s hlen
    cases bs with
    | nil => simp [checkRowsAB]
    | cons b bs => simp at hlen
  | cons a as ih =>
    intro bs s hlen
    cases bs with
    | nil => simp at hlen
    | cons b bs =>
      have hlen' : as.length = bs.length := by simpa using hlen
      cases ha : _check_array_sums_to_1 a (RowId.aRow s) with
      | error ea =>
        simp only [checkRowsAB, ha]
        obtain ⟨_, hbad⟩ := check1_error ha
        constructor
        · intro hcontra; exact absurd hcontra (by simp)
        · intro ⟨hA, _⟩
          exact absurd (hA a (List.mem_cons_self a as)) hbad
      | ok u =>
        cases u
        have haok : |a.sum - 1| ≤ sumTol := (check1_ok_iff a (RowId.aRow s)).mp ha
        cases hb : _check_array_sums_to_1 b (RowId.bRow s) with
        | error eb =>
          simp only [checkRowsAB, ha, hb]
          obtain ⟨_, hbad⟩ := check1_error hb
          constructor
          · intro hcontra; exact absurd hcontra (by simp)
          · intro ⟨_, hB⟩
            exact absurd (hB b (List.mem_cons_self b bs)) hbad
        | ok u2 =>
          cases u2
          have hbok : |b.sum - 1| ≤ sumTol := (check1_ok_iff b (RowId.bRow s)).mp hb
          simp only [checkRowsAB, ha, hb]
          rw [ih bs (s + 1) hlen']
          constructor
          · intro ⟨hA, hB⟩
            refine ⟨?_, ?_⟩ <;> intro r hr <;> rcases List.mem_cons.mp hr with h' | h'
            · exact h' ▸ haok
            · exact hA r h'
            · exact h' ▸ hbok
            · exact hB r h'
          · intro ⟨hA, hB⟩
            exact ⟨fun r hr => hA r (List.mem_cons_of_mem a hr),
              fun r hr => hB r (List.mem_cons_of_mem b hr)⟩

theorem checkRowsAB_error :
    ∀ (as bs : List (List ℝ)) (s : ℕ) (e : ValidationError),
      checkRowsAB as bs s = Except.error e →
        (∃ k, k < as.length ∧ e.row = RowId.aRow (s + k)
          ∧ e.observedSum = (as.getD k []).sum
          ∧ ¬ |(as.getD k []).sum - 1| ≤ sumTol)
        ∨ ∃ k, k < bs.length ∧ e.row = RowId.bRow (s + k)
            ∧ e.observedSum = (bs.getD k []).sum
            ∧ ¬ |(bs.getD k []).sum - 1| ≤ sumTol := by
  intro as
  induction as with
  | nil =>
    intro bs s e h
    cases bs <;> simp [checkRowsAB] at h
  | cons a as ih =>
    intro bs s e h
    cases bs with
    | nil => simp [checkRowsAB] at h
    | cons b bs =>
      cases ha : _check_array_sums_to_1 a (RowId.aRow s) with
      | error ea =>
        simp only [checkRowsAB, ha, Except.error.injEq] at h
        obtain ⟨hea, hbad⟩ := check1_error ha
        subst h
        subst hea
        exact Or.inl ⟨0, by simp, by simp, by simp, by simpa using hbad⟩
      | ok u =>
        cases u
        cases hb : _check_array_sums_to_1 b (RowId.bRow s) with
        | error eb =>
          simp only [checkRowsAB, ha, hb, Except.error.injEq] at h
          obtain ⟨heb, hbad⟩ := check1_error hb
          subst h
          subst heb
          exact Or.inr ⟨0, by simp, by simp, by simp, by simpa using hbad⟩
        | ok u2 =>
          cases u2
          simp only [checkRowsAB, ha, hb] at h
          rcases ih bs (s + 1) e h with ⟨k, hk, hrow, hsum, hbad⟩ | ⟨k, hk, hrow, hsum, hbad⟩
          · refine Or.inl ⟨k + 1, by simpa using hk, ?_, by simpa using hsum,
              by simpa using hbad⟩
            rw [hrow]
            congr 1
            omega
          · refine Or.inr ⟨k + 1, by simpa using hk, ?_, by simpa using hsum,
              by simpa using hbad⟩
            rw [hrow]
            congr 1
            omega

theorem conditioning_ok_iff (pi : List ℝ) (A B : List (List ℝ))
    (hlen : A.length = B.length) :
    _check_matrices_conditioning pi A B = Except.ok () ↔ rowSumsOK pi A B := by
  cases hpi : _check_array_sums_to_1 pi RowId.piRow with
  | error ep =>
    simp only [_check_matrices_conditioning, hpi]
    obtain ⟨_, hbad⟩ := check1_error hpi
    constructor
    · intro hcontra; exact absurd hcontra (by simp)
    · intro ⟨hpi1, _, _⟩; exact absurd hpi1 hbad
  | ok u =>
    cases u
    have hpiok : |pi.sum - 1| ≤ sumTol := (check1_ok_iff pi RowId.piRow).mp hpi
    simp only [_check_matrices_conditioning, hpi]
    rw [checkRowsAB_ok_iff A B 0 hlen, rowSumsOK]
    exact ⟨fun ⟨h1, h2⟩ => ⟨hpiok, h1, h2⟩, fun ⟨_, h1, h2⟩ => ⟨h1, h2⟩⟩

theorem conditioning_error (pi : List ℝ) (A B : List (List ℝ))
    (e : ValidationError)
    (h : _check_matrices_conditioning pi A B = Except.error e) :
    e.observedSum = (rowOf pi A B e.row).sum
      ∧ ¬ |(rowOf pi A B e.row).sum - 1| ≤ sumTol := by
  cases hpi : _check_array_sums_to_1 pi RowId.piRow with
  | error ep =>
    simp only [_check_matrices_conditioning, hpi, Except.error.injEq] at h
    obtain ⟨hep, hbad⟩ := check1_error hpi
    subst h
    subst hep
    exact ⟨rfl, hbad⟩
  | ok u =>
    cases u
    simp only [_check_matrices_conditioning, hpi] at h
    rcases checkRowsAB_error A B 0 e h with ⟨k, _, hrow, hsum, hbad⟩ | ⟨k, _, hrow, hsum, hbad⟩
    · rw [hrow]
      simp only [rowOf, Nat.zero_add]
      exact ⟨hsum, hbad⟩
    · rw [hrow]
      simp only [rowOf, Nat.zero_add]
      exact ⟨hsum, hbad⟩

/-- C8 (amended): constructing an HMM from `(pi, A, B, n_iter)` fails
immediately with an error — returning no model — whenever `len(pi)`,
`rows(A)`, `cols(A)`, `rows(B)` are not all equal, or whenever some row of
`pi`, `A` or `B` does not sum to 1 within tolerance; a validation failure
names the offending row and carries its observed sum (whose deviation from 1
exceeds the tolerance); validation runs unconditionally at construction;
otherwise construction succeeds and the model satisfies the shape invariants
and the row-sum invariant.  Non-negativity of entries is not validated (see
the counterexample). -/
theorem c8_init_validation (pi : List ℝ) (A B : List (List ℝ)) (n : ℕ)
    (hrectA : ∀ r ∈ A, r.length = (A.headD []).length)
    (hrectB : ∀ r ∈ B, r.length = (B.headD []).length) :
    (¬ shapesOK pi A B →
        HMM_init pi A B n = Except.error HMMBuildError.shapeMismatch)
    ∧ (shapesOK pi A B → rowSumsOK pi A B →
        HMM_init pi A B n
          = Except.ok ⟨pi, A, B, n, A.length, (B.headD []).length⟩)
    ∧ (shapesOK pi A B → ¬ rowSumsOK pi A B →
        ∃ e, HMM_init pi A B n
          = Except.error (HMMBuildError.invalidDistribution e))
    ∧ (∀ e, HMM_init pi A B n
          = Except.error (HMMBuildError.invalidDistribution e) →
        e.observedSum = (rowOf pi A B e.row).sum
          ∧ ¬ |(rowOf pi A B e.row).sum - 1| ≤ sumTol)
    ∧ ∀ m, HMM_init pi A B n = Except.ok m →
        m.pi = pi ∧ m.A = A ∧ m.B = B ∧ m.n_iter = n
        ∧ m.n_hidden_states = pi.length ∧ m.n_hidden_states = A.length
        ∧ m.n_hidden_states = B.length
        ∧ (∀ r ∈ A, r.length = m.n_hidden_states)
        ∧ m.n_observable_states = (B.headD []).length
        ∧ (∀ r ∈ B, r.length = m.n_observable_states)
        ∧ rowSumsOK pi A B := by
  have hlenAB : shapesOK pi A B → A.length = B.length := by
    intro hs
    exact (hs.1.trans hs.2.1).trans hs.2.2
  refine ⟨?_, ?_, ?_, ?_, ?_⟩
  · intro hns
    rw [HMM_init, if_neg hns]
  · intro hs hrows
    rw [HMM_init, if_pos hs]
    have hc : _check_matrices_conditioning pi A B = Except.ok () :=
      (conditioning_ok_iff pi A B (hlenAB hs)).mpr hrows
    rw [hc]
  · intro hs hrows
    rw [HMM_init, if_pos hs]
    cases hc : _check_matrices_conditioning pi A B with
    | ok u =>
      cases u
      exact absurd ((conditioning_ok_iff pi A B (hlenAB hs)).mp hc) hrows
    | error e => exact ⟨e, rfl⟩
  · intro e he
    rw [HMM_init] at he
    split_ifs at he with hs
    · cases hc : _check_matrices_conditioning pi A B with
      | ok u =>
        cases u
        simp only [hc] at he
        exact absurd he (by simp)
      | error e' =>
        simp only [hc] at he
        have he' : e' = e := by
          have := Except.error.inj he
          exact (HMMBuildError.invalidDistribution.inj this)
        subst he'
        exact conditioning_error pi A B e' hc
    · exact absurd (Except.error.inj he) (by simp)
  · intro m hm
    rw [HMM_init] at hm
    split_ifs at hm with hs
    cases hc : _check_matrices_conditioning pi A B with
    | error e' =>
      simp only [hc] at hm
      exact absurd hm (by simp)
    | ok u =>
      cases u
      simp only [hc] at hm
      have hmEq := Except.ok.inj hm
      subst hmEq
      have hrows : rowSumsOK pi A B :=
        (conditioning_ok_iff pi A B (hlenAB hs)).mp hc
      exact ⟨rfl, rfl, rfl, rfl, hs.1.trans hs.2.1, rfl, hlenAB hs,
        fun r hr => (hrectA r hr).trans hs.1.symm, rfl,
        fun r hr => hrectB r hr, hrows⟩

/-- Witness for C8 at a concrete valid input (`S = K = 1`). -/
theorem c8_init_validation_witness :
    HMM_init [(1 : ℝ)] [[(1 : ℝ)]] [[(1 : ℝ)]] 5
      = Except.ok ⟨[(1 : ℝ)], [[(1 : ℝ)]], [[(1 : ℝ)]], 5, 1, 1⟩ := by
  have h := c8_init_validation [(1 : ℝ)] [[(1 : ℝ)]] [[(1 : ℝ)]] 5
    (by simp) (by simp)
  have hrows : rowSumsOK [(1 : ℝ)] [[(1 : ℝ)]] [[(1 : ℝ)]] := by
    refine ⟨by norm_num [sumTol], ?_, ?_⟩ <;>
      intro r hr <;>
      simp only [List.mem_singleton] at hr <;>
      subst hr <;>
      norm_num [sumTol]
  have hok := h.2.1 (by simp [shapesOK]) hrows
  simpa using hok

/-- C8, counterexample: the input `pi = [2, -1]` (sum 1), with valid `A` and
`B`, passes the shape check and every row-sum check, so construction
succeeds — yet the returned model's `pi` has a negative entry, violating the
non-negativity part of the spec's distribution invariant. -/
theorem c8_negative_entries_accepted :
    HMM_init [(2 : ℝ), -1]
        [[(1 / 2 : ℝ), 1 / 2], [(1 / 2 : ℝ), 1 / 2]] [[(1 : ℝ)], [(1 : ℝ)]] 0
      = Except.ok ⟨[(2 : ℝ), -1],
          [[(1 / 2 : ℝ), 1 / 2], [(1 / 2 : ℝ), 1 / 2]], [[(1 : ℝ)], [(1 : ℝ)]],
          0, 2, 1⟩
    ∧ ([(2 : ℝ), -1].getD 1 0) < 0 := by
  constructor
  · have hpi : _check_array_sums_to_1 [(2 : ℝ), -1] RowId.piRow
        = Except.ok () := by
      rw [_check_array_sums_to_1, if_pos]
      norm_num [sumTol]
    have hA0 : _check_array_sums_to_1 [(1 / 2 : ℝ), 1 / 2] (RowId.aRow 0)
        = Except.ok () := by
      rw [_check_array_sums_to_1, if_pos]
      norm_num [sumTol]
    have hA1 : _check_array_sums_to_1 [(1 / 2 : ℝ), 1 / 2] (RowId.aRow 1)
        = Except.ok () := by
      rw [_check_array_sums_to_1, if_pos]
      norm_num [sumTol]
    have hB0 : _check_array_sums_to_1 [(1 : ℝ)] (RowId.bRow 0)
        = Except.ok () := by
      rw [_check_array_sums_to_1, if_pos]
      norm_num [sumTol]
    have hB1 : _check_array_sums_to_1 [(1 : ℝ)] (RowId.bRow 1)
        = Except.ok () := by
      rw [_check_array_sums_to_1, if_pos]
      norm_num [sumTol]
    rw [HMM_init, if_pos (by simp [shapesOK])]
    simp only [_check_matrices_conditioning, hpi, checkRowsAB, hA0, hA1,
      hB0, hB1]
    rfl
  · norm_num

end Hmm
